import Mathlib

/-!
Shallow embedding of the admission-control engine of the
`flask-url-shortener` repository:

* `Solution.is_allowed` / `Solution.reset` — `src/solution.py`
* `SlidingWindow.allow_request` / `SlidingWindow.reset` —
  `src/reference/sliding_window.py`
* `TokenBucket.allow_request` — `src/reference/token_bucket.py`
* `FixedWindow.allow_request` — `src/reference/fixed_window.py`

Wall-clock instants (`time.time()` values) are modeled as rationals and
Python integers as `ℤ`.  Each limiter's key→state dictionary is modeled as a
total function from keys; dictionaries whose entries carry a non-trivial
creation default keep an `Option` codomain so that "key absent" stays
distinct from every present state.  The lock merely serializes calls, so a
run of the engine is a fold of the step function over the list of calls.
-/

namespace RateLimiting

/-- One call to the limiter: the key it is issued for and the wall-clock
instant (`time.time()`) sampled at the start of the call. -/
structure Call where
  key : String
  time : ℚ
deriving DecidableEq

/-- Dictionary entry assignment `d[k] = v`, on a total-function model of the
dictionary. -/
def updF {α : Type} (st : String → α) (k : String) (v : α) : String → α :=
  fun x => if x = k then v else st x

/-- Final state after running a sequence of calls through a limiter step
function. -/
def runCalls {σ : Type} (step : σ → String → ℚ → Bool × σ) : σ → List Call → σ
  | st, [] => st
  | st, c :: cs => runCalls step (step st c.key c.time).2 cs

/-- Boolean results of a sequence of calls, in call order. -/
def outputs {σ : Type} (step : σ → String → ℚ → Bool × σ) : σ → List Call → List Bool
  | _, [] => []
  | st, c :: cs => (step st c.key c.time).1 :: outputs step (step st c.key c.time).2 cs

/-- Instants of the admitted calls carrying key `k`, in call order. -/
def admitted {σ : Type} (step : σ → String → ℚ → Bool × σ) :
    σ → List Call → String → List ℚ
  | _, [], _ => []
  | st, c :: cs, k =>
    (if (step st c.key c.time).1 = true ∧ c.key = k then [c.time] else [])
      ++ admitted step (step st c.key c.time).2 cs k

/-- Number of instants in `l` that fall inside the trailing interval
`(t - w, t]` of length `w`. -/
def countWin (w t : ℚ) (l : List ℚ) : ℕ :=
  l.countP fun a => decide (t - w < a ∧ a ≤ t)

namespace Solution

/-- Timestamp store `self.requests` of `src/solution.py`: a
`defaultdict(deque)` mapping each key to the deque of retained admission
timestamps, modeled as a total function whose default value is the empty
deque. -/
def State := String → List ℚ

/-- Freshly constructed store: the `defaultdict(deque)` holds no entries, so
every key reads as the empty deque. -/
def init : State := fun _ => []

/-- `RateLimiter.is_allowed` of `src/solution.py` (lines 20–45): sample
`current_time`, pop timestamps `≤ current_time - time_window` off the front
of the key's deque, admit iff fewer than `max_requests` timestamps remain,
and append `current_time` on admission.  Returns the result together with
the mutated store (the popped deque persists in both branches because the
deque is mutated in place). -/
def is_allowed (max_requests : ℤ) (time_window : ℚ) (st : State) (key : String)
    (current_time : ℚ) : Bool × State :=
  let cutoff_time := current_time - time_window
  let request_times := (st key).dropWhile fun ts => decide (ts ≤ cutoff_time)
  if (request_times.length : ℤ) < max_requests then
    (true, updF st key (request_times ++ [current_time]))
  else
    (false, updF st key request_times)

/-- `RateLimiter.reset` of `src/solution.py` (lines 47–60): with no key,
`self.requests.clear()` empties the whole dictionary; with a key, the body
guarded by `if key in self.requests` clears that key's deque.  An absent key
already reads as the empty deque in the total-function model, so the guarded
in-place clear amounts to writing the empty deque. -/
def reset (st : State) (key : Option String) : State :=
  match key with
  | none => fun _ => []
  | some k => updF st k []

/-- `RateLimiter.__init__` of `src/solution.py` (lines 8–18): stores
`max_requests` and `time_window` unchanged and creates the empty store; no
validation is performed and no exception can be raised. -/
def new (max_requests : ℤ) (time_window : ℚ) : Except String (ℤ × ℚ) :=
  Except.ok (max_requests, time_window)

end Solution

namespace SlidingWindow

/-- Store `self.requests : Dict[str, List[float]]` of
`src/reference/sliding_window.py`; `none` models an absent key. -/
def State := String → Option (List ℚ)

/-- Freshly constructed store: the dictionary is empty. -/
def init : State := fun _ => none

/-- `RateLimiter.allow_request` of `src/reference/sliding_window.py`
(lines 26–52): create the key's entry as the empty list if absent, keep only
the timestamps strictly greater than `now - window`, admit iff fewer than
`limit` remain, and append `now` on admission.  The filtered list is stored
back in both branches. -/
def allow_request (limit : ℤ) (window : ℚ) (st : State) (user_id : String)
    (now : ℚ) : Bool × State :=
  let cutoff := now - window
  let kept := ((st user_id).getD []).filter fun ts => decide (cutoff < ts)
  if (kept.length : ℤ) < limit then
    (true, updF st user_id (some (kept ++ [now])))
  else
    (false, updF st user_id (some kept))

/-- `RateLimiter.reset` of `src/reference/sliding_window.py` (lines 54–62):
`del self.requests[user_id]` guarded by a membership test, so resetting an
unknown key is a no-op. -/
def reset (st : State) (user_id : String) : State :=
  match st user_id with
  | none => st
  | some _ => updF st user_id none

/-- `RateLimiter.__init__` of `src/reference/sliding_window.py`: stores
`limit` and `window` unchanged; no validation, no possible exception. -/
def new (limit : ℤ) (window : ℚ) : Except String (ℤ × ℚ) :=
  Except.ok (limit, window)

end SlidingWindow

namespace TokenBucket

/-- One entry of `self.buckets` in `src/reference/token_bucket.py`: the
dictionary `{"tokens": …, "last_update": …}`. -/
structure Bucket where
  tokens : ℚ
  last_update : ℚ
deriving DecidableEq

/-- Store `self.buckets : Dict[str, Dict]`; `none` models an absent key. -/
def State := String → Option Bucket

/-- Freshly constructed store: the dictionary is empty. -/
def init : State := fun _ => none

/-- `RateLimiter.allow_request` of `src/reference/token_bucket.py`
(lines 27–58): create a full bucket (`tokens = limit`, `last_update = now`)
if the key is absent, refill by `elapsed * rate` capped at `limit` — with
`rate = limit / window` as computed once in `__init__` — stamp
`last_update = now`, then consume one token iff at least one is available.
The refilled bucket is stored back in both branches. -/
def allow_request (limit : ℤ) (window : ℚ) (st : State) (user_id : String)
    (now : ℚ) : Bool × State :=
  let rate : ℚ := (limit : ℚ) / window
  let bucket := (st user_id).getD ⟨(limit : ℚ), now⟩
  let elapsed := now - bucket.last_update
  let tokens := min (limit : ℚ) (bucket.tokens + elapsed * rate)
  if 1 ≤ tokens then
    (true, updF st user_id (some ⟨tokens - 1, now⟩))
  else
    (false, updF st user_id (some ⟨tokens, now⟩))

/-- `RateLimiter.__init__` of `src/reference/token_bucket.py` (lines 20–25):
stores `limit` and `window` and computes `rate = limit / window`; the only
possible construction-time failure is Python's `ZeroDivisionError` when
`window` equals zero — no other validation is performed. -/
def new (limit : ℤ) (window : ℚ) : Except String (ℤ × ℚ × ℚ) :=
  if window = 0 then Except.error "ZeroDivisionError"
  else Except.ok (limit, window, (limit : ℚ) / window)

end TokenBucket

namespace FixedWindow

/-- One entry of `self.windows` in `src/reference/fixed_window.py`: the
dictionary `{"window_start": …, "count": …}`. -/
structure WinState where
  window_start : ℚ
  count : ℤ
deriving DecidableEq

/-- Store `self.windows : Dict[str, Dict]`; `none` models an absent key. -/
def State := String → Option WinState

/-- Freshly constructed store: the dictionary is empty. -/
def init : State := fun _ => none

/-- Python `int(x)` on a real value: truncation toward zero. -/
def pyInt (x : ℚ) : ℤ :=
  if 0 ≤ x then ⌊x⌋ else ⌈x⌉

/-- `RateLimiter.allow_request` of `src/reference/fixed_window.py`
(lines 28–59): align `window_start = int(now / window) * window`, create
`{window_start, count: 0}` if the key is absent, roll the counter to the new
window when the aligned start advanced (`window_start >` stored value), then
admit and increment iff `count < limit`. -/
def allow_request (limit : ℤ) (window : ℚ) (st : State) (user_id : String)
    (now : ℚ) : Bool × State :=
  let window_start : ℚ := (pyInt (now / window) : ℚ) * window
  let w0 := (st user_id).getD ⟨window_start, 0⟩
  let w1 := if w0.window_start < window_start then (⟨window_start, 0⟩ : WinState) else w0
  if w1.count < limit then
    (true, updF st user_id (some ⟨w1.window_start, w1.count + 1⟩))
  else
    (false, updF st user_id (some w1))

/-- `RateLimiter.__init__` of `src/reference/fixed_window.py` (lines 22–26):
stores `limit` and `window` unchanged; no validation, no possible
exception. -/
def new (limit : ℤ) (window : ℚ) : Except String (ℤ × ℚ) :=
  Except.ok (limit, window)

end FixedWindow

/-! ### Generic facts about the store and the run functions -/

theorem updF_self {α : Type} (st : String → α) (k : String) (v : α) :
    updF st k v k = v := by
  simp [updF]

theorem updF_other {α : Type} (st : String → α) (k k' : String) (v : α)
    (h : k' ≠ k) : updF st k v k' = st k' := by
  simp [updF, h]

/-- Unfolding equation for `admitted` on a cons cell. -/
theorem admitted_cons {σ : Type} (step : σ → String → ℚ → Bool × σ) (st : σ)
    (c : Call) (cs : List Call) (k : String) :
    admitted step st (c :: cs) k =
      (if (step st c.key c.time).1 = true ∧ c.key = k then [c.time] else [])
        ++ admitted step (step st c.key c.time).2 cs k := rfl

/-- Every timestamp recorded by `admitted` is the instant of one of the
calls. -/
theorem time_of_mem_admitted {σ : Type} (step : σ → String → ℚ → Bool × σ) :
    ∀ (cs : List Call) (st : σ) (k : String) (a : ℚ),
      a ∈ admitted step st cs k → ∃ c ∈ cs, a = c.time := by
  intro cs
  induction cs with
  | nil => intro st k a h; simp [admitted] at h
  | cons c cs ih =>
    intro st k a h
    simp only [admitted, List.mem_append] at h
    rcases h with h | h
    · refine ⟨c, by simp, ?_⟩
      by_cases hb : (step st c.key c.time).1 = true ∧ c.key = k
      · rw [if_pos hb] at h; simpa using h
      · rw [if_neg hb] at h; simp at h
    · obtain ⟨c', hc', ha⟩ := ih (step st c.key c.time).2 k a h
      exact ⟨c', by simp [hc'], ha⟩

/-! ### Sorted-list pruning facts -/

/-- On a non-decreasing list, everything surviving the front-pruning by
`· ≤ c` is strictly greater than `c`. -/
theorem mem_dropWhile_le_gt (c : ℚ) :
    ∀ (l : List ℚ), l.Pairwise (· ≤ ·) →
      ∀ a ∈ l.dropWhile (fun x => decide (x ≤ c)), c < a := by
  intro l
  induction l with
  | nil => intro _ a ha; simp [List.dropWhile] at ha
  | cons x xs ih =>
    intro hp a ha
    rw [List.pairwise_cons] at hp
    rw [List.dropWhile_cons] at ha
    by_cases hx : x ≤ c
    · rw [if_pos (by simpa using hx)] at ha
      exact ih hp.2 a ha
    · rw [if_neg (by simpa using hx)] at ha
      push_neg at hx
      rcases List.mem_cons.mp ha with rfl | ha
      · exact hx
      · exact lt_of_lt_of_le hx (hp.1 a ha)

/-- On a non-decreasing list, filtering by `c < ·` (the reference sliding
window) and front-pruning by `· ≤ c` (the solution's deque loop) agree. -/
theorem filter_gt_eq_dropWhile (c : ℚ) :
    ∀ (l : List ℚ), l.Pairwise (· ≤ ·) →
      l.filter (fun x => decide (c < x)) = l.dropWhile (fun x => decide (x ≤ c)) := by
  intro l
  induction l with
  | nil => intro _; simp
  | cons x xs ih =>
    intro hp
    rw [List.pairwise_cons] at hp
    rw [List.filter_cons, List.dropWhile_cons]
    by_cases hx : x ≤ c
    · rw [if_neg (by simpa using not_lt.mpr hx), if_pos (by simpa using hx)]
      exact ih hp.2
    · push_neg at hx
      rw [if_pos (by simpa using hx), if_neg (by simpa using not_le.mpr hx)]
      have hxs : xs.filter (fun a => decide (c < a)) = xs :=
        List.filter_eq_self.mpr fun a ha => by
          simpa using lt_of_lt_of_le hx (hp.1 a ha)
      rw [hxs]

/-! ### Counting facts for trailing windows -/

theorem countWin_append (w t : ℚ) (l₁ l₂ : List ℚ) :
    countWin w t (l₁ ++ l₂) = countWin w t l₁ + countWin w t l₂ :=
  List.countP_append _ _ _

theorem countWin_le_length (w t : ℚ) (l : List ℚ) : countWin w t l ≤ l.length :=
  List.countP_le_length _

theorem countWin_eq_zero (w t : ℚ) (l : List ℚ)
    (h : ∀ a ∈ l, ¬(t - w < a ∧ a ≤ t)) : countWin w t l = 0 :=
  List.countP_eq_zero.mpr fun a ha => by simpa using h a ha

theorem countWin_singleton_le_one (w t a : ℚ) : countWin w t [a] ≤ 1 :=
  countWin_le_length w t [a]

/-! ### Step characterizations for `src/solution.py` -/

theorem sol_is_allowed_admits (m : ℤ) (w : ℚ) (st : Solution.State) (key : String)
    (now : ℚ)
    (h : ((((st key).dropWhile fun ts => decide (ts ≤ now - w)).length : ℤ) < m)) :
    Solution.is_allowed m w st key now =
      (true, updF st key (((st key).dropWhile fun ts => decide (ts ≤ now - w)) ++ [now])) := by
  simp only [Solution.is_allowed, if_pos h]

theorem sol_is_allowed_reject (m : ℤ) (w : ℚ) (st : Solution.State) (key : String)
    (now : ℚ)
    (h : ¬ ((((st key).dropWhile fun ts => decide (ts ≤ now - w)).length : ℤ) < m)) :
    Solution.is_allowed m w st key now =
      (false, updF st key ((st key).dropWhile fun ts => decide (ts ≤ now - w))) := by
  simp only [Solution.is_allowed, if_neg h]

/-- A call for one key never touches another key's deque. -/
theorem sol_is_allowed_frame (m : ℤ) (w : ℚ) (st : Solution.State) (key k' : String)
    (now : ℚ) (h : k' ≠ key) :
    (Solution.is_allowed m w st key now).2 k' = st k' := by
  by_cases hc : ((((st key).dropWhile fun ts => decide (ts ≤ now - w)).length : ℤ) < m)
  · rw [sol_is_allowed_admits m w st key now hc]; exact updF_other st key k' _ h
  · rw [sol_is_allowed_reject m w st key now hc]; exact updF_other st key k' _ h

/-- The outcome of a call and the key's resulting deque depend only on that
key's deque. -/
theorem sol_is_allowed_agree (m : ℤ) (w : ℚ) (st1 st2 : Solution.State)
    (key : String) (now : ℚ) (h : st1 key = st2 key) :
    (Solution.is_allowed m w st1 key now).1 = (Solution.is_allowed m w st2 key now).1
      ∧ (Solution.is_allowed m w st1 key now).2 key
          = (Solution.is_allowed m w st2 key now).2 key := by
  by_cases hc : ((((st1 key).dropWhile fun ts => decide (ts ≤ now - w)).length : ℤ) < m)
  · rw [sol_is_allowed_admits m w st1 key now hc,
      sol_is_allowed_admits m w st2 key now (h ▸ hc)]
    exact ⟨rfl, by simp only [updF_self, h]⟩
  · rw [sol_is_allowed_reject m w st1 key now hc,
      sol_is_allowed_reject m w st2 key now (h ▸ hc)]
    exact ⟨rfl, by simp only [updF_self, h]⟩

/-- Two stores agreeing on the key of every upcoming call produce the same
sequence of results. -/
theorem sol_outputs_agree (m : ℤ) (w : ℚ) :
    ∀ (calls : List Call) (st1 st2 : Solution.State),
      (∀ c ∈ calls, st1 c.key = st2 c.key) →
      outputs (Solution.is_allowed m w) st1 calls
        = outputs (Solution.is_allowed m w) st2 calls := by
  intro calls
  induction calls with
  | nil => intro _ _ _; simp [outputs]
  | cons c cs ih =>
    intro st1 st2 hag
    have hhd := hag c (by simp)
    have hres := sol_is_allowed_agree m w st1 st2 c.key c.time hhd
    simp only [outputs]
    refine congrArg₂ (· :: ·) hres.1 (ih _ _ ?_)
    intro c' hc'
    by_cases hck : c'.key = c.key
    · rw [hck]; exact hres.2
    · rw [sol_is_allowed_frame m w st1 c.key c'.key c.time hck,
        sol_is_allowed_frame m w st2 c.key c'.key c.time hck]
      exact hag c' (by simp [hc'])

/-- Core inductive bound for `src/solution.py`: when the stored deque for
key `k` is non-decreasing, dominated by every upcoming call instant, and
already satisfies the trailing-window density bound, then along any further
non-decreasing call sequence the stored deque together with the newly
admitted instants for `k` keeps satisfying the bound on every trailing
interval `(t - w, t]`. -/
theorem sol_bound_aux (m : ℤ) (w : ℚ) :
    ∀ (calls : List Call) (st : Solution.State) (k : String),
      (st k).Pairwise (· ≤ ·) →
      (∀ a ∈ st k, ∀ c ∈ calls, a ≤ c.time) →
      (∀ t, (countWin w t (st k) : ℤ) ≤ m) →
      (calls.map Call.time).Pairwise (· ≤ ·) →
      ∀ t, (countWin w t (st k) : ℤ)
            + countWin w t (admitted (Solution.is_allowed m w) st calls k) ≤ m := by
  intro calls
  induction calls with
  | nil =>
    intro st k _ _ hdens _ t
    simpa [admitted, countWin] using hdens t
  | cons c cs ih =>
    intro st k hsort hpast hdens hmono t
    rw [List.map_cons, List.pairwise_cons] at hmono
    obtain ⟨hnowle, hmono'⟩ := hmono
    by_cases hkey : c.key = k
    · subst hkey
      have hsplit :
          ((st c.key).takeWhile fun ts => decide (ts ≤ c.time - w))
            ++ ((st c.key).dropWhile fun ts => decide (ts ≤ c.time - w)) = st c.key :=
        List.takeWhile_append_dropWhile _ _
      have hdle : ∀ a ∈ (st c.key).takeWhile fun ts => decide (ts ≤ c.time - w),
          a ≤ c.time - w := fun a ha => by simpa using List.mem_takeWhile_imp ha
      have hpgt : ∀ a ∈ (st c.key).dropWhile fun ts => decide (ts ≤ c.time - w),
          c.time - w < a := mem_dropWhile_le_gt _ _ hsort
      have hpsub :
          List.Sublist ((st c.key).dropWhile fun ts => decide (ts ≤ c.time - w))
            (st c.key) := List.dropWhile_sublist _
      have hpsort :
          ((st c.key).dropWhile fun ts => decide (ts ≤ c.time - w)).Pairwise (· ≤ ·) :=
        hsort.sublist hpsub
      have hple_now : ∀ a ∈ (st c.key).dropWhile fun ts => decide (ts ≤ c.time - w),
          a ≤ c.time := fun a ha => hpast a (hpsub.subset ha) c (by simp)
      have hppast : ∀ a ∈ (st c.key).dropWhile fun ts => decide (ts ≤ c.time - w),
          ∀ c' ∈ cs, a ≤ c'.time :=
        fun a ha c' hc' => hpast a (hpsub.subset ha) c' (by simp [hc'])
      have hsc : ∀ t', countWin w t' ((st c.key).takeWhile fun ts => decide (ts ≤ c.time - w))
            + countWin w t' ((st c.key).dropWhile fun ts => decide (ts ≤ c.time - w))
          = countWin w t' (st c.key) := fun t' => by
        rw [← countWin_append, hsplit]
      by_cases hadm :
          ((((st c.key).dropWhile fun ts => decide (ts ≤ c.time - w)).length : ℤ) < m)
      · -- the call is admitted: the deque becomes `pruned ++ [c.time]`
        have hstep := sol_is_allowed_admits m w st c.key c.time hadm
        have hIH := ih (updF st c.key
            (((st c.key).dropWhile fun ts => decide (ts ≤ c.time - w)) ++ [c.time])) c.key
          (by
            rw [updF_self]
            refine List.pairwise_append.mpr ⟨hpsort, List.pairwise_singleton _ _, ?_⟩
            intro a ha b hb
            rw [List.mem_singleton] at hb
            exact hb ▸ hple_now a ha)
          (by
            rw [updF_self]
            intro a ha c' hc'
            rcases List.mem_append.mp ha with ha | ha
            · exact hppast a ha c' hc'
            · rw [List.mem_singleton] at ha
              exact ha ▸ hnowle c'.time (List.mem_map_of_mem Call.time hc'))
          (by
            rw [updF_self]
            intro t'
            have h1 := countWin_le_length w t'
              ((st c.key).dropWhile fun ts => decide (ts ≤ c.time - w))
            have h2 := countWin_singleton_le_one w t' c.time
            rw [countWin_append]
            omega)
          hmono'
        rw [updF_self] at hIH
        rw [admitted_cons, hstep]
        dsimp only
        rw [if_pos (⟨rfl, rfl⟩ : (true : Bool) = true ∧ c.key = c.key)]
        rw [countWin_append]
        by_cases hnt : c.time ≤ t
        · have hdrop0 :
              countWin w t ((st c.key).takeWhile fun ts => decide (ts ≤ c.time - w)) = 0 :=
            countWin_eq_zero _ _ _ fun a ha hin => by
              have := hdle a ha
              have := hin.1
              linarith
          have he1 := hsc t
          have hIHt := hIH t
          rw [countWin_append] at hIHt
          have he3 := countWin_append w t [c.time]
            (admitted (Solution.is_allowed m w)
              (updF st c.key
                (((st c.key).dropWhile fun ts => decide (ts ≤ c.time - w)) ++ [c.time]))
              cs c.key)
          omega
        · push_neg at hnt
          have hrest0 : countWin w t (admitted (Solution.is_allowed m w)
              (updF st c.key
                (((st c.key).dropWhile fun ts => decide (ts ≤ c.time - w)) ++ [c.time]))
              cs c.key) = 0 := by
            refine countWin_eq_zero _ _ _ fun a ha hin => ?_
            obtain ⟨c', hc', rfl⟩ := time_of_mem_admitted _ cs _ c.key a ha
            have h1 := hnowle c'.time (List.mem_map_of_mem Call.time hc')
            have h2 := hin.2
            linarith
          have hnow0 : countWin w t [c.time] = 0 :=
            countWin_eq_zero _ _ _ fun a ha hin => by
              rw [List.mem_singleton] at ha
              subst ha
              exact absurd hin.2 (not_le.mpr hnt)
          have hcw := countWin_append w t [c.time]
            (admitted (Solution.is_allowed m w)
              (updF st c.key
                (((st c.key).dropWhile fun ts => decide (ts ≤ c.time - w)) ++ [c.time]))
              cs c.key)
          have hd := hdens t
          omega
      · -- the call is rejected: only the pruning persists
        have hstep := sol_is_allowed_reject m w st c.key c.time hadm
        have hIH := ih (updF st c.key
            ((st c.key).dropWhile fun ts => decide (ts ≤ c.time - w))) c.key
          (by rw [updF_self]; exact hpsort)
          (by rw [updF_self]; exact hppast)
          (by
            rw [updF_self]
            intro t'
            have he := hsc t'
            have hd := hdens t'
            omega)
          hmono'
        rw [updF_self] at hIH
        rw [admitted_cons, hstep]
        dsimp only
        rw [if_neg (fun hcon => Bool.false_ne_true hcon.1), List.nil_append]
        by_cases hnt : c.time ≤ t
        · have hdrop0 :
              countWin w t ((st c.key).takeWhile fun ts => decide (ts ≤ c.time - w)) = 0 :=
            countWin_eq_zero _ _ _ fun a ha hin => by
              have := hdle a ha
              have := hin.1
              linarith
          have he1 := hsc t
          have hIHt := hIH t
          omega
        · push_neg at hnt
          have hrest0 : countWin w t (admitted (Solution.is_allowed m w)
              (updF st c.key
                ((st c.key).dropWhile fun ts => decide (ts ≤ c.time - w)))
              cs c.key) = 0 := by
            refine countWin_eq_zero _ _ _ fun a ha hin => ?_
            obtain ⟨c', hc', rfl⟩ := time_of_mem_admitted _ cs _ c.key a ha
            have h1 := hnowle c'.time (List.mem_map_of_mem Call.time hc')
            have h2 := hin.2
            linarith
          have hd := hdens t
          omega
    · -- a call for a different key leaves `k`'s deque untouched
      have hfr : (Solution.is_allowed m w st c.key c.time).2 k = st k :=
        sol_is_allowed_frame m w st c.key k c.time (Ne.symm hkey)
      have hIH := ih (Solution.is_allowed m w st c.key c.time).2 k
        (by rw [hfr]; exact hsort)
        (by rw [hfr]; intro a ha c' hc'; exact hpast a ha c' (by simp [hc']))
        (by rw [hfr]; exact hdens)
        hmono'
      rw [hfr] at hIH
      have hif : ¬((Solution.is_allowed m w st c.key c.time).1 = true ∧ c.key = k) :=
        fun hcon => hkey hcon.2
      rw [admitted_cons, if_neg hif, List.nil_append]
      exact hIH t

/-! ### Step characterizations for `src/reference/sliding_window.py` -/

theorem slide_allow_admits (m : ℤ) (w : ℚ) (st : SlidingWindow.State) (u : String)
    (now : ℚ)
    (h : (((((st u).getD []).filter fun ts => decide (now - w < ts)).length : ℤ) < m)) :
    SlidingWindow.allow_request m w st u now =
      (true, updF st u
        (some ((((st u).getD []).filter fun ts => decide (now - w < ts)) ++ [now]))) := by
  simp only [SlidingWindow.allow_request, if_pos h]

theorem slide_allow_reject (m : ℤ) (w : ℚ) (st : SlidingWindow.State) (u : String)
    (now : ℚ)
    (h : ¬ (((((st u).getD []).filter fun ts => decide (now - w < ts)).length : ℤ) < m)) :
    SlidingWindow.allow_request m w st u now =
      (false, updF st u
        (some (((st u).getD []).filter fun ts => decide (now - w < ts)))) := by
  simp only [SlidingWindow.allow_request, if_neg h]

/-- A call for one key never touches another key's entry. -/
theorem slide_allow_frame (m : ℤ) (w : ℚ) (st : SlidingWindow.State) (u k' : String)
    (now : ℚ) (h : k' ≠ u) :
    (SlidingWindow.allow_request m w st u now).2 k' = st k' := by
  by_cases hc : (((((st u).getD []).filter fun ts => decide (now - w < ts)).length : ℤ) < m)
  · rw [slide_allow_admits m w st u now hc]; exact updF_other st u k' _ h
  · rw [slide_allow_reject m w st u now hc]; exact updF_other st u k' _ h

/-- Core inductive bound for `src/reference/sliding_window.py`, the analogue
of `sol_bound_aux` with filter-based pruning. -/
theorem slide_bound_aux (m : ℤ) (w : ℚ) :
    ∀ (calls : List Call) (st : SlidingWindow.State) (k : String),
      ((st k).getD []).Pairwise (· ≤ ·) →
      (∀ a ∈ (st k).getD [], ∀ c ∈ calls, a ≤ c.time) →
      (∀ t, (countWin w t ((st k).getD []) : ℤ) ≤ m) →
      (calls.map Call.time).Pairwise (· ≤ ·) →
      ∀ t, (countWin w t ((st k).getD []) : ℤ)
            + countWin w t (admitted (SlidingWindow.allow_request m w) st calls k) ≤ m := by
  intro calls
  induction calls with
  | nil =>
    intro st k _ _ hdens _ t
    simpa [admitted, countWin] using hdens t
  | cons c cs ih =>
    intro st k hsort hpast hdens hmono t
    rw [List.map_cons, List.pairwise_cons] at hmono
    obtain ⟨hnowle, hmono'⟩ := hmono
    by_cases hkey : c.key = k
    · subst hkey
      have hfd : ((st c.key).getD []).filter (fun ts => decide (c.time - w < ts))
          = ((st c.key).getD []).dropWhile fun ts => decide (ts ≤ c.time - w) :=
        filter_gt_eq_dropWhile _ _ hsort
      have hsplit :
          (((st c.key).getD []).takeWhile fun ts => decide (ts ≤ c.time - w))
            ++ (((st c.key).getD []).dropWhile fun ts => decide (ts ≤ c.time - w))
            = (st c.key).getD [] :=
        List.takeWhile_append_dropWhile _ _
      have hdle : ∀ a ∈ ((st c.key).getD []).takeWhile fun ts => decide (ts ≤ c.time - w),
          a ≤ c.time - w := fun a ha => by simpa using List.mem_takeWhile_imp ha
      have hpsub :
          List.Sublist (((st c.key).getD []).dropWhile fun ts => decide (ts ≤ c.time - w))
            ((st c.key).getD []) := List.dropWhile_sublist _
      have hpsort :
          (((st c.key).getD []).dropWhile fun ts => decide (ts ≤ c.time - w)).Pairwise
            (· ≤ ·) := hsort.sublist hpsub
      have hple_now : ∀ a ∈ ((st c.key).getD []).dropWhile fun ts => decide (ts ≤ c.time - w),
          a ≤ c.time := fun a ha => hpast a (hpsub.subset ha) c (by simp)
      have hppast : ∀ a ∈ ((st c.key).getD []).dropWhile fun ts => decide (ts ≤ c.time - w),
          ∀ c' ∈ cs, a ≤ c'.time :=
        fun a ha c' hc' => hpast a (hpsub.subset ha) c' (by simp [hc'])
      have hsc : ∀ t',
          countWin w t' (((st c.key).getD []).takeWhile fun ts => decide (ts ≤ c.time - w))
            + countWin w t' (((st c.key).getD []).dropWhile fun ts => decide (ts ≤ c.time - w))
          = countWin w t' ((st c.key).getD []) := fun t' => by
        rw [← countWin_append, hsplit]
      by_cases hadm :
          (((((st c.key).getD []).dropWhile fun ts => decide (ts ≤ c.time - w)).length : ℤ) < m)
      · have hstep := slide_allow_admits m w st c.key c.time (by rw [hfd]; exact hadm)
        rw [hfd] at hstep
        have hIH := ih (updF st c.key
            (some ((((st c.key).getD []).dropWhile fun ts => decide (ts ≤ c.time - w))
              ++ [c.time]))) c.key
          (by
            simp only [updF_self, Option.getD_some]
            refine List.pairwise_append.mpr ⟨hpsort, List.pairwise_singleton _ _, ?_⟩
            intro a ha b hb
            rw [List.mem_singleton] at hb
            exact hb ▸ hple_now a ha)
          (by
            simp only [updF_self, Option.getD_some]
            intro a ha c' hc'
            rcases List.mem_append.mp ha with ha | ha
            · exact hppast a ha c' hc'
            · rw [List.mem_singleton] at ha
              exact ha ▸ hnowle c'.time (List.mem_map_of_mem Call.time hc'))
          (by
            simp only [updF_self, Option.getD_some]
            intro t'
            have h1 := countWin_le_length w t'
              (((st c.key).getD []).dropWhile fun ts => decide (ts ≤ c.time - w))
            have h2 := countWin_singleton_le_one w t' c.time
            rw [countWin_append]
            omega)
          hmono'
        simp only [updF_self, Option.getD_some] at hIH
        rw [admitted_cons, hstep]
        dsimp only
        rw [if_pos (⟨rfl, rfl⟩ : (true : Bool) = true ∧ c.key = c.key)]
        rw [countWin_append]
        by_cases hnt : c.time ≤ t
        · have hdrop0 : countWin w t
              (((st c.key).getD []).takeWhile fun ts => decide (ts ≤ c.time - w)) = 0 :=
            countWin_eq_zero _ _ _ fun a ha hin => by
              have := hdle a ha
              have := hin.1
              linarith
          have he1 := hsc t
          have hIHt := hIH t
          rw [countWin_append] at hIHt
          have he3 := countWin_append w t [c.time]
            (admitted (SlidingWindow.allow_request m w)
              (updF st c.key
                (some ((((st c.key).getD []).dropWhile fun ts => decide (ts ≤ c.time - w))
                  ++ [c.time])))
              cs c.key)
          omega
        · push_neg at hnt
          have hrest0 : countWin w t (admitted (SlidingWindow.allow_request m w)
              (updF st c.key
                (some ((((st c.key).getD []).dropWhile fun ts => decide (ts ≤ c.time - w))
                  ++ [c.time])))
              cs c.key) = 0 := by
            refine countWin_eq_zero _ _ _ fun a ha hin => ?_
            obtain ⟨c', hc', rfl⟩ := time_of_mem_admitted _ cs _ c.key a ha
            have h1 := hnowle c'.time (List.mem_map_of_mem Call.time hc')
            have h2 := hin.2
            linarith
          have hnow0 : countWin w t [c.time] = 0 :=
            countWin_eq_zero _ _ _ fun a ha hin => by
              rw [List.mem_singleton] at ha
              subst ha
              exact absurd hin.2 (not_le.mpr hnt)
          have hcw := countWin_append w t [c.time]
            (admitted (SlidingWindow.allow_request m w)
              (updF st c.key
                (some ((((st c.key).getD []).dropWhile fun ts => decide (ts ≤ c.time - w))
                  ++ [c.time])))
              cs c.key)
          have hd := hdens t
          omega
      · have hstep := slide_allow_reject m w st c.key c.time (by rw [hfd]; exact hadm)
        rw [hfd] at hstep
        have hIH := ih (updF st c.key
            (some (((st c.key).getD []).dropWhile fun ts => decide (ts ≤ c.time - w)))) c.key
          (by simp only [updF_self, Option.getD_some]; exact hpsort)
          (by simp only [updF_self, Option.getD_some]; exact hppast)
          (by
            simp only [updF_self, Option.getD_some]
            intro t'
            have he := hsc t'
            have hd := hdens t'
            omega)
          hmono'
        simp only [updF_self, Option.getD_some] at hIH
        rw [admitted_cons, hstep]
        dsimp only
        rw [if_neg (fun hcon => Bool.false_ne_true hcon.1), List.nil_append]
        by_cases hnt : c.time ≤ t
        · have hdrop0 : countWin w t
              (((st c.key).getD []).takeWhile fun ts => decide (ts ≤ c.time - w)) = 0 :=
            countWin_eq_zero _ _ _ fun a ha hin => by
              have := hdle a ha
              have := hin.1
              linarith
          have he1 := hsc t
          have hIHt := hIH t
          omega
        · push_neg at hnt
          have hrest0 : countWin w t (admitted (SlidingWindow.allow_request m w)
              (updF st c.key
                (some (((st c.key).getD []).dropWhile fun ts => decide (ts ≤ c.time - w))))
              cs c.key) = 0 := by
            refine countWin_eq_zero _ _ _ fun a ha hin => ?_
            obtain ⟨c', hc', rfl⟩ := time_of_mem_admitted _ cs _ c.key a ha
            have h1 := hnowle c'.time (List.mem_map_of_mem Call.time hc')
            have h2 := hin.2
            linarith
          have hd := hdens t
          omega
    · have hfr : (SlidingWindow.allow_request m w st c.key c.time).2 k = st k :=
        slide_allow_frame m w st c.key k c.time (Ne.symm hkey)
      have hIH := ih (SlidingWindow.allow_request m w st c.key c.time).2 k
        (by rw [hfr]; exact hsort)
        (by rw [hfr]; intro a ha c' hc'; exact hpast a ha c' (by simp [hc']))
        (by rw [hfr]; exact hdens)
        hmono'
      rw [hfr] at hIH
      have hif : ¬((SlidingWindow.allow_request m w st c.key c.time).1 = true ∧ c.key = k) :=
        fun hcon => hkey hcon.2
      rw [admitted_cons, if_neg hif, List.nil_append]
      exact hIH t

/-! ### Step characterizations for `src/reference/token_bucket.py` -/

/-- Token count after the refill line of `TokenBucket.allow_request`
(`min(limit, tokens + elapsed * rate)` on the stored or freshly created
bucket), named for the theorems below. -/
def tbRefilled (m : ℤ) (w : ℚ) (st : TokenBucket.State) (u : String) (now : ℚ) : ℚ :=
  min (m : ℚ) (((st u).getD ⟨(m : ℚ), now⟩).tokens
    + (now - ((st u).getD ⟨(m : ℚ), now⟩).last_update) * ((m : ℚ) / w))

theorem tb_allow_admits (m : ℤ) (w : ℚ) (st : TokenBucket.State) (u : String)
    (now : ℚ) (h : 1 ≤ tbRefilled m w st u now) :
    TokenBucket.allow_request m w st u now
      = (true, updF st u (some ⟨tbRefilled m w st u now - 1, now⟩)) := by
  simp only [TokenBucket.allow_request, tbRefilled] at h ⊢
  rw [if_pos h]

theorem tb_allow_reject (m : ℤ) (w : ℚ) (st : TokenBucket.State) (u : String)
    (now : ℚ) (h : ¬ 1 ≤ tbRefilled m w st u now) :
    TokenBucket.allow_request m w st u now
      = (false, updF st u (some ⟨tbRefilled m w st u now, now⟩)) := by
  simp only [TokenBucket.allow_request, tbRefilled] at h ⊢
  rw [if_neg h]

/-- With a non-positive limit the refilled token count stays below one, so
every token-bucket call rejects from every store. -/
theorem tb_false_of_nonpos (m : ℤ) (w : ℚ) (hm : m ≤ 0) (st : TokenBucket.State)
    (k : String) (now : ℚ) : (TokenBucket.allow_request m w st k now).1 = false := by
  have hcond : ¬ 1 ≤ tbRefilled m w st k now := by
    intro h
    have h1 : tbRefilled m w st k now ≤ (m : ℚ) := min_le_left _ _
    have h2 : (m : ℚ) ≤ 0 := by exact_mod_cast hm
    linarith
  rw [tb_allow_reject m w st k now hcond]

/-! ### Step characterizations for `src/reference/fixed_window.py` -/

/-- Window record inspected by `FixedWindow.allow_request`: the stored (or
lazily created) record, rolled forward to a zero count when the aligned
window start advanced.  Named for the theorems below. -/
def fwRolled (w : ℚ) (st : FixedWindow.State) (u : String) (now : ℚ) :
    FixedWindow.WinState :=
  let window_start : ℚ := (FixedWindow.pyInt (now / w) : ℚ) * w
  let w0 := (st u).getD ⟨window_start, 0⟩
  if w0.window_start < window_start then ⟨window_start, 0⟩ else w0

theorem fw_allow_admits (m : ℤ) (w : ℚ) (st : FixedWindow.State) (u : String)
    (now : ℚ) (h : (fwRolled w st u now).count < m) :
    FixedWindow.allow_request m w st u now
      = (true, updF st u (some ⟨(fwRolled w st u now).window_start,
          (fwRolled w st u now).count + 1⟩)) := by
  simp only [FixedWindow.allow_request, fwRolled] at h ⊢
  rw [if_pos h]

theorem fw_allow_reject (m : ℤ) (w : ℚ) (st : FixedWindow.State) (u : String)
    (now : ℚ) (h : ¬ (fwRolled w st u now).count < m) :
    FixedWindow.allow_request m w st u now
      = (false, updF st u (some (fwRolled w st u now))) := by
  simp only [FixedWindow.allow_request, fwRolled] at h ⊢
  rw [if_neg h]

/-- Reachability invariant of the fixed-window store: every stored counter
is non-negative. -/
def FWCountsNonneg (st : FixedWindow.State) : Prop :=
  ∀ k b, st k = some b → 0 ≤ b.count

theorem fwRolled_count_nonneg (w : ℚ) (st : FixedWindow.State) (u : String)
    (now : ℚ) (hst : FWCountsNonneg st) : 0 ≤ (fwRolled w st u now).count := by
  unfold fwRolled
  cases hopt : st u with
  | none => simp [Option.getD]
  | some b =>
    have hb := hst u b hopt
    simp only [hopt, Option.getD_some]
    split
    · simp
    · exact hb

/-- With a non-positive limit every fixed-window call rejects, and the
counter invariant is preserved. -/
theorem fw_step_nonpos (m : ℤ) (w : ℚ) (hm : m ≤ 0) (st : FixedWindow.State)
    (k : String) (now : ℚ) (hst : FWCountsNonneg st) :
    (FixedWindow.allow_request m w st k now).1 = false
      ∧ FWCountsNonneg (FixedWindow.allow_request m w st k now).2 := by
  have h0 := fwRolled_count_nonneg w st k now hst
  have hc : ¬ (fwRolled w st k now).count < m := by omega
  rw [fw_allow_reject m w st k now hc]
  refine ⟨rfl, ?_⟩
  intro k' b hb
  dsimp only at hb
  by_cases hk : k' = k
  · subst hk
    rw [updF_self] at hb
    cases hb
    exact h0
  · rw [updF_other st k k' _ hk] at hb
    exact hst k' b hb

/-! ### Always-reject runs -/

theorem sol_false_of_nonpos (m : ℤ) (w : ℚ) (hm : m ≤ 0) (st : Solution.State)
    (k : String) (now : ℚ) : (Solution.is_allowed m w st k now).1 = false := by
  rw [sol_is_allowed_reject m w st k now (by intro h; omega)]

theorem slide_false_of_nonpos (m : ℤ) (w : ℚ) (hm : m ≤ 0) (st : SlidingWindow.State)
    (k : String) (now : ℚ) : (SlidingWindow.allow_request m w st k now).1 = false := by
  rw [slide_allow_reject m w st k now (by intro h; omega)]

/-- A step function that rejects from every state makes every output of a
run false. -/
theorem outputs_all_false {σ : Type} (step : σ → String → ℚ → Bool × σ)
    (h : ∀ st k now, (step st k now).1 = false) :
    ∀ (calls : List Call) (st : σ),
      outputs step st calls = List.replicate calls.length false := by
  intro calls
  induction calls with
  | nil => intro st; simp [outputs]
  | cons c cs ih =>
    intro st
    simp [outputs, h, ih, List.replicate_succ]

theorem fw_outputs_all_false (m : ℤ) (w : ℚ) (hm : m ≤ 0) :
    ∀ (calls : List Call) (st : FixedWindow.State), FWCountsNonneg st →
      outputs (FixedWindow.allow_request m w) st calls
        = List.replicate calls.length false := by
  intro calls
  induction calls with
  | nil => intro st _; simp [outputs]
  | cons c cs ih =>
    intro st hst
    obtain ⟨h1, h2⟩ := fw_step_nonpos m w hm st c.key c.time hst
    simp [outputs, h1, ih _ h2, List.replicate_succ]

/-! ### Concrete traces for the scenario-level claims -/

/-- Burst of five calls at `t = 0` followed by five calls at `t = 1.9`, all
for one key — exercises the token bucket against the trailing-window
bound with `capacity = 5`, `window = 2`. -/
def traceBurstRefill : List Call :=
  List.replicate 5 ⟨"u", 0⟩ ++ List.replicate 5 ⟨"u", 19/10⟩

/-- Scenario D of the spec taken literally: five calls at `t = 0`, five more
at `t = 1.5`, one key. -/
def traceScenarioD : List Call :=
  List.replicate 5 ⟨"u", 0⟩ ++ List.replicate 5 ⟨"u", 3/2⟩

/-- Scenario D shifted to start at `t = 1`, so that the `1.5 s` wait crosses
the aligned boundary `t = 2` of the fixed window. -/
def traceScenarioDShifted : List Call :=
  List.replicate 5 ⟨"u", 1⟩ ++ List.replicate 5 ⟨"u", 5/2⟩

/-- Five calls just before the aligned boundary `t = 2` and five just after,
one key — the fixed-window boundary burst with `capacity = 5`,
`window = 2`. -/
def traceBoundaryBurst : List Call :=
  List.replicate 5 ⟨"u", 19/10⟩ ++ List.replicate 5 ⟨"u", 2⟩

/-! ### Claims -/

/-- C1 (counterexample): the trailing-window bound fails for the
token-bucket variant.  With `capacity = 5`, `window = 2` and non-decreasing
call times, five calls at `t = 0` drain the initially full bucket and four
of the five calls at `t = 1.9` are admitted from the `4.75` refilled tokens,
so the trailing interval `(-0.1, 1.9]` holds `9 > 5` admissions. -/
theorem C1_token_bucket_violates_bound :
    (traceBurstRefill.map Call.time).Pairwise (· ≤ ·)
      ∧ ¬ ((countWin 2 (19/10)
            (admitted (TokenBucket.allow_request 5 2) TokenBucket.init
              traceBurstRefill "u") : ℤ) ≤ 5) := by
  constructor
  · simp only [traceBurstRefill, List.replicate, List.map_cons, List.map_nil,
      List.map_append]
    norm_num [List.pairwise_cons]
  · norm_num [traceBurstRefill, countWin, admitted, TokenBucket.allow_request,
      TokenBucket.init, updF, List.replicate, Option.getD, min_def, List.countP_cons]

/-- C1 (amended): for the two sliding-window implementations
(`Solution.is_allowed` of `src/solution.py` and
`SlidingWindow.allow_request` of `src/reference/sliding_window.py`), for
every key, every call sequence with non-decreasing call times and every
trailing interval `(t - window, t]`, the number of admitted calls for that
key whose instants fall inside the interval never exceeds the
capacity. -/
theorem C1_sliding_window_bound (m : ℤ) (w : ℚ) (calls : List Call) (k : String)
    (hm : 0 ≤ m) (hmono : (calls.map Call.time).Pairwise (· ≤ ·)) (t : ℚ) :
    (countWin w t (admitted (Solution.is_allowed m w) Solution.init calls k) : ℤ) ≤ m
      ∧ (countWin w t
          (admitted (SlidingWindow.allow_request m w) SlidingWindow.init calls k) : ℤ) ≤ m := by
  constructor
  · have h := sol_bound_aux m w calls Solution.init k
      (by simp [Solution.init])
      (by intro a ha; simp [Solution.init] at ha)
      (by intro t'; simp [Solution.init, countWin]; exact hm)
      hmono t
    simpa [Solution.init, countWin] using h
  · have h := slide_bound_aux m w calls SlidingWindow.init k
      (by simp [SlidingWindow.init])
      (by intro a ha; simp [SlidingWindow.init] at ha)
      (by intro t'; simp [SlidingWindow.init, countWin]; exact hm)
      hmono t
    simpa [SlidingWindow.init, countWin] using h

/-- Witness for `C1_sliding_window_bound` at a concrete input. -/
theorem C1_sliding_window_bound_witness :
    (countWin 1 0 (admitted (Solution.is_allowed 1 1) Solution.init
        [⟨"u", 0⟩] "u") : ℤ) ≤ 1
      ∧ (countWin 1 0 (admitted (SlidingWindow.allow_request 1 1) SlidingWindow.init
          [⟨"u", 0⟩] "u") : ℤ) ≤ 1 :=
  C1_sliding_window_bound 1 1 [⟨"u", 0⟩] "u" (by decide) (by decide) 0

/-- C2: the fixed-window boundary defect.  With `capacity = 5`,
`window = 2`, the non-decreasing sequence of five calls at `t = 1.9` and
five at `t = 2.0` is admitted in full: `2 × capacity = 10` admissions whose
instants all lie within the span `[1.9, 2]` of length `0.1 < window`. -/
theorem C2_fixed_window_boundary_burst :
    (traceBoundaryBurst.map Call.time).Pairwise (· ≤ ·)
      ∧ outputs (FixedWindow.allow_request 5 2) FixedWindow.init traceBoundaryBurst
          = List.replicate 10 true
      ∧ admitted (FixedWindow.allow_request 5 2) FixedWindow.init traceBoundaryBurst "u"
          = List.replicate 5 (19/10) ++ List.replicate 5 2
      ∧ (2 : ℚ) - 19/10 < 2
      ∧ (10 : ℕ) = 2 * 5 := by
  refine ⟨?_, ?_, ?_, by norm_num, by norm_num⟩
  · simp only [traceBoundaryBurst, List.replicate, List.map_cons, List.map_nil,
      List.map_append]
    norm_num [List.pairwise_cons]
  · norm_num [traceBoundaryBurst, outputs, FixedWindow.allow_request,
      FixedWindow.init, FixedWindow.pyInt, updF, List.replicate, Option.getD]
  · norm_num [traceBoundaryBurst, admitted, FixedWindow.allow_request,
      FixedWindow.init, FixedWindow.pyInt, updF, List.replicate, Option.getD]

/-- C3 (counterexample): Scenario D taken at the literal instants `t = 0`
and `t = 1.5` does not reproduce the claimed fixed-window defect: both
batches fall into the same aligned window `[0, 2)`, so the fixed-window
variant admits none of the second batch instead of all five. -/
theorem C3_fixed_window_scenario_D_counterexample :
    outputs (FixedWindow.allow_request 5 2) FixedWindow.init traceScenarioD
        = List.replicate 5 true ++ List.replicate 5 false
      ∧ (outputs (FixedWindow.allow_request 5 2) FixedWindow.init traceScenarioD).drop 5
          ≠ List.replicate 5 true := by
  constructor
  · norm_num [traceScenarioD, outputs, FixedWindow.allow_request, FixedWindow.init,
      FixedWindow.pyInt, updF, List.replicate, Option.getD]
  · norm_num [traceScenarioD, outputs, FixedWindow.allow_request, FixedWindow.init,
      FixedWindow.pyInt, updF, List.replicate, Option.getD]

/-- C3 (amended): Scenario D with `capacity = 5`, `window = 2`.  Five calls
at `t = 0` are all admitted for every variant.  Of the five further calls at
`t = 1.5`: the fixed-window variant admits none (same aligned window) —
it admits all five only when the wait crosses an aligned boundary, e.g.
with the batches at `t = 1` and `t = 2.5`; the sliding-window variant
admits none; the token-bucket variant admits exactly three out of the
`1.5 × 2.5 = 3.75` refilled tokens. -/
theorem C3_scenario_D :
    outputs (FixedWindow.allow_request 5 2) FixedWindow.init traceScenarioD
        = List.replicate 5 true ++ List.replicate 5 false
      ∧ outputs (FixedWindow.allow_request 5 2) FixedWindow.init traceScenarioDShifted
          = List.replicate 10 true
      ∧ outputs (SlidingWindow.allow_request 5 2) SlidingWindow.init traceScenarioD
          = List.replicate 5 true ++ List.replicate 5 false
      ∧ outputs (TokenBucket.allow_request 5 2) TokenBucket.init traceScenarioD
          = List.replicate 8 true ++ List.replicate 2 false := by
  refine ⟨?_, ?_, ?_, ?_⟩
  · norm_num [traceScenarioD, outputs, FixedWindow.allow_request, FixedWindow.init,
      FixedWindow.pyInt, updF, List.replicate, Option.getD]
  · norm_num [traceScenarioDShifted, outputs, FixedWindow.allow_request,
      FixedWindow.init, FixedWindow.pyInt, updF, List.replicate, Option.getD]
  · norm_num [traceScenarioD, outputs, SlidingWindow.allow_request,
      SlidingWindow.init, updF, List.replicate, Option.getD, List.filter]
  · norm_num [traceScenarioD, outputs, TokenBucket.allow_request, TokenBucket.init,
      updF, List.replicate, Option.getD, min_def]

/-- C9: Scenario A.  With `capacity = 3`, `window = 1`, the first three
calls for a fresh key are admitted and the fourth call at the same instant
is rejected. -/
theorem C9_scenario_A :
    outputs (Solution.is_allowed 3 1) Solution.init (List.replicate 4 ⟨"u", 0⟩)
      = [true, true, true, false] := by
  norm_num [outputs, Solution.is_allowed, Solution.init, updF, List.replicate,
    List.dropWhile]

/-- C4: with capacity `0` and a positive window, every call of every variant
rejects, for every key, every call instant and every call sequence — the
admission branch is unreachable and no run can fail. -/
theorem C4_capacity_zero_always_rejects (w : ℚ) (calls : List Call) (_hw : 0 < w) :
    outputs (Solution.is_allowed 0 w) Solution.init calls
        = List.replicate calls.length false
      ∧ outputs (SlidingWindow.allow_request 0 w) SlidingWindow.init calls
          = List.replicate calls.length false
      ∧ outputs (TokenBucket.allow_request 0 w) TokenBucket.init calls
          = List.replicate calls.length false
      ∧ outputs (FixedWindow.allow_request 0 w) FixedWindow.init calls
          = List.replicate calls.length false := by
  refine ⟨outputs_all_false _ (fun st k now => sol_false_of_nonpos 0 w le_rfl st k now)
      calls _,
    outputs_all_false _ (fun st k now => slide_false_of_nonpos 0 w le_rfl st k now)
      calls _,
    outputs_all_false _ (fun st k now => tb_false_of_nonpos 0 w le_rfl st k now)
      calls _,
    fw_outputs_all_false 0 w le_rfl calls FixedWindow.init ?_⟩
  intro k b hb
  simp [FixedWindow.init] at hb

/-- Witness for `C4_capacity_zero_always_rejects` at a concrete input. -/
theorem C4_capacity_zero_always_rejects_witness :
    outputs (Solution.is_allowed 0 1) Solution.init [⟨"u", 0⟩]
        = List.replicate 1 false
      ∧ outputs (SlidingWindow.allow_request 0 1) SlidingWindow.init [⟨"u", 0⟩]
          = List.replicate 1 false
      ∧ outputs (TokenBucket.allow_request 0 1) TokenBucket.init [⟨"u", 0⟩]
          = List.replicate 1 false
      ∧ outputs (FixedWindow.allow_request 0 1) FixedWindow.init [⟨"u", 0⟩]
          = List.replicate 1 false :=
  C4_capacity_zero_always_rejects 1 [⟨"u", 0⟩] (by norm_num)

/-- C5 (code behavior at the failing input): no constructor validates its
configuration.  Negative capacity and non-positive window are accepted
silently and stored unclamped; the only construction-time failure anywhere
is the token-bucket `rate = limit / window` raising `ZeroDivisionError` at
`window = 0`, which is a division error rather than a contract check. -/
theorem C5_constructors_accept_malformed_config :
    Solution.new (-1) 1 = Except.ok (-1, 1)
      ∧ SlidingWindow.new (-1) 1 = Except.ok (-1, 1)
      ∧ FixedWindow.new (-1) 1 = Except.ok (-1, 1)
      ∧ TokenBucket.new (-1) 1 = Except.ok (-1, 1, -1)
      ∧ Solution.new 3 (-2) = Except.ok (3, -2)
      ∧ Solution.new 3 0 = Except.ok (3, 0)
      ∧ TokenBucket.new 3 0 = Except.error "ZeroDivisionError" := by
  refine ⟨rfl, rfl, rfl, ?_, rfl, rfl, ?_⟩
  · norm_num [TokenBucket.new]
  · norm_num [TokenBucket.new]

/-- Example store for the solution limiter holding one recorded timestamp
under key `"a"`. -/
def exSolState : Solution.State := updF Solution.init "a" [1]

/-- Example store for the reference sliding-window limiter holding one entry
under key `"a"`. -/
def exSlideState : SlidingWindow.State := updF SlidingWindow.init "a" (some [1])

/-- C6: reset semantics.  For `src/solution.py`: `reset(key)` leaves every
other key's deque unchanged, returns the reset key to its initial state (so
any subsequent calls for it behave as from a fresh limiter), is a no-op on
a key with no recorded state, and `reset()` clears every key.  For
`src/reference/sliding_window.py`: `reset(user_id)` leaves other keys
unchanged, removes the reset key's entry, and is a no-op on an unknown
key. -/
theorem C6_reset_semantics (st : Solution.State) (k k' : String) (m : ℤ) (w : ℚ)
    (calls : List Call) (sst : SlidingWindow.State) :
    (k' ≠ k → Solution.reset st (some k) k' = st k')
      ∧ Solution.reset st (some k) k = Solution.init k
      ∧ (st k = [] → Solution.reset st (some k) = st)
      ∧ Solution.reset st none = Solution.init
      ∧ ((∀ c ∈ calls, c.key = k) →
          outputs (Solution.is_allowed m w) (Solution.reset st (some k)) calls
            = outputs (Solution.is_allowed m w) Solution.init calls)
      ∧ (k' ≠ k → SlidingWindow.reset sst k k' = sst k')
      ∧ SlidingWindow.reset sst k k = SlidingWindow.init k
      ∧ (sst k = none → SlidingWindow.reset sst k = sst) := by
  refine ⟨?_, ?_, ?_, ?_, ?_, ?_, ?_, ?_⟩
  · intro h
    simp only [Solution.reset]
    exact updF_other st k k' _ h
  · simp only [Solution.reset]
    exact updF_self st k []
  · intro h
    funext x
    simp only [Solution.reset, updF]
    by_cases hx : x = k
    · subst hx; rw [if_pos rfl, h]
    · rw [if_neg hx]
  · rfl
  · intro h
    refine sol_outputs_agree m w calls _ _ fun c hc => ?_
    rw [h c hc]
    simp only [Solution.reset, Solution.init]
    exact updF_self st k []
  · intro h
    simp only [SlidingWindow.reset]
    cases hopt : sst k with
    | none => rfl
    | some l => exact updF_other sst k k' _ h
  · simp only [SlidingWindow.reset]
    cases hopt : sst k with
    | none => exact hopt
    | some l => exact updF_self sst k none
  · intro h
    simp only [SlidingWindow.reset, h]

/-- Witness for `C6_reset_semantics` at concrete inputs. -/
theorem C6_reset_semantics_witness :
    Solution.reset exSolState (some "u") "a" = exSolState "a"
      ∧ Solution.reset exSolState (some "u") "u" = Solution.init "u"
      ∧ Solution.reset exSolState (some "u") = exSolState
      ∧ Solution.reset exSolState none = Solution.init
      ∧ outputs (Solution.is_allowed 1 1) (Solution.reset exSolState (some "u")) [⟨"u", 0⟩]
          = outputs (Solution.is_allowed 1 1) Solution.init [⟨"u", 0⟩]
      ∧ SlidingWindow.reset exSlideState "u" "a" = exSlideState "a"
      ∧ SlidingWindow.reset exSlideState "u" "u" = SlidingWindow.init "u"
      ∧ SlidingWindow.reset exSlideState "u" = exSlideState := by
  obtain ⟨h1, h2, h3, h4, h5, h6, h7, h8⟩ :=
    C6_reset_semantics exSolState "u" "a" 1 1 [⟨"u", 0⟩] exSlideState
  exact ⟨h1 (by decide), h2, h3 (by simp [exSolState, updF, Solution.init]), h4,
    h5 (by simp), h6 (by decide), h7,
    h8 (by simp [exSlideState, updF, SlidingWindow.init])⟩

/-- C7: a rejected call still persists the pruning/refill side effects, but
never records the rejected event as consumed.  On rejection: the solution
stores the front-pruned deque with nothing appended; the reference sliding
window stores the filtered list with nothing appended; the token bucket
stores the refilled token count with `last_update` advanced to `now` and no
token deducted; the fixed window stores the (possibly rolled) record with
the count not incremented. -/
theorem C7_rejected_call_side_effects (m : ℤ) (w : ℚ) (k : String) (now : ℚ)
    (st : Solution.State) (slst : SlidingWindow.State) (tbst : TokenBucket.State)
    (fwst : FixedWindow.State) :
    ((Solution.is_allowed m w st k now).1 = false →
        (Solution.is_allowed m w st k now).2 k
          = (st k).dropWhile fun ts => decide (ts ≤ now - w))
      ∧ ((SlidingWindow.allow_request m w slst k now).1 = false →
        (SlidingWindow.allow_request m w slst k now).2 k
          = some (((slst k).getD []).filter fun ts => decide (now - w < ts)))
      ∧ ((TokenBucket.allow_request m w tbst k now).1 = false →
        (TokenBucket.allow_request m w tbst k now).2 k
          = some ⟨tbRefilled m w tbst k now, now⟩)
      ∧ ((FixedWindow.allow_request m w fwst k now).1 = false →
        (FixedWindow.allow_request m w fwst k now).2 k
          = some (fwRolled w fwst k now)) := by
  refine ⟨?_, ?_, ?_, ?_⟩
  · intro h
    by_cases hc : ((((st k).dropWhile fun ts => decide (ts ≤ now - w)).length : ℤ) < m)
    · rw [sol_is_allowed_admits m w st k now hc] at h
      exact absurd h (by simp)
    · rw [sol_is_allowed_reject m w st k now hc]
      exact updF_self st k _
  · intro h
    by_cases hc :
        (((((slst k).getD []).filter fun ts => decide (now - w < ts)).length : ℤ) < m)
    · rw [slide_allow_admits m w slst k now hc] at h
      exact absurd h (by simp)
    · rw [slide_allow_reject m w slst k now hc]
      exact updF_self slst k _
  · intro h
    by_cases hc : 1 ≤ tbRefilled m w tbst k now
    · rw [tb_allow_admits m w tbst k now hc] at h
      exact absurd h (by simp)
    · rw [tb_allow_reject m w tbst k now hc]
      exact updF_self tbst k _
  · intro h
    by_cases hc : (fwRolled w fwst k now).count < m
    · rw [fw_allow_admits m w fwst k now hc] at h
      exact absurd h (by simp)
    · rw [fw_allow_reject m w fwst k now hc]
      exact updF_self fwst k _

/-- Witness for `C7_rejected_call_side_effects` at a concrete rejected
call (capacity `0`, so the first call already rejects in every variant). -/
theorem C7_rejected_call_side_effects_witness :
    (Solution.is_allowed 0 1 Solution.init "u" 0).2 "u"
        = (Solution.init "u").dropWhile (fun ts => decide (ts ≤ (0 : ℚ) - 1))
      ∧ (SlidingWindow.allow_request 0 1 SlidingWindow.init "u" 0).2 "u"
          = some (((SlidingWindow.init "u").getD []).filter
              fun ts => decide ((0 : ℚ) - 1 < ts))
      ∧ (TokenBucket.allow_request 0 1 TokenBucket.init "u" 0).2 "u"
          = some ⟨tbRefilled 0 1 TokenBucket.init "u" 0, 0⟩
      ∧ (FixedWindow.allow_request 0 1 FixedWindow.init "u" 0).2 "u"
          = some (fwRolled 1 FixedWindow.init "u" 0) := by
  obtain ⟨h1, h2, h3, h4⟩ :=
    C7_rejected_call_side_effects 0 1 "u" (0 : ℚ) Solution.init SlidingWindow.init
      TokenBucket.init FixedWindow.init
  exact ⟨h1 (sol_false_of_nonpos 0 1 le_rfl _ _ _),
    h2 (slide_false_of_nonpos 0 1 le_rfl _ _ _),
    h3 (tb_false_of_nonpos 0 1 le_rfl _ _ _),
    h4 (fw_step_nonpos 0 1 le_rfl FixedWindow.init "u" 0
      (by intro k b hb; simp [FixedWindow.init] at hb)).1⟩

/-- C8: key independence of `src/solution.py`.  The outcome of a call and
the key's resulting deque are identical in any two stores that agree on
that key; a call for one key leaves every other key's deque unchanged; and
Scenario B: with capacity `2`, window `1 s`, key `user1` gets two
admissions and a rejection, after which key `user2`'s first call is still
admitted. -/
theorem C8_key_independence (m : ℤ) (w : ℚ) (st1 st2 st : Solution.State)
    (k k' : String) (now : ℚ) :
    (st1 k = st2 k →
        (Solution.is_allowed m w st1 k now).1 = (Solution.is_allowed m w st2 k now).1
          ∧ (Solution.is_allowed m w st1 k now).2 k
              = (Solution.is_allowed m w st2 k now).2 k)
      ∧ (k' ≠ k → (Solution.is_allowed m w st k now).2 k' = st k')
      ∧ outputs (Solution.is_allowed 2 1) Solution.init
          [⟨"user1", 0⟩, ⟨"user1", 0⟩, ⟨"user1", 0⟩, ⟨"user2", 0⟩]
          = [true, true, false, true] := by
  refine ⟨fun h => sol_is_allowed_agree m w st1 st2 k now h,
    fun h => sol_is_allowed_frame m w st k k' now h, ?_⟩
  norm_num [outputs, Solution.is_allowed, Solution.init, updF, List.dropWhile]

/-- Witness for `C8_key_independence` at concrete inputs: `exSolState` and
the fresh store agree on key `"u"`. -/
theorem C8_key_independence_witness :
    ((Solution.is_allowed 1 1 exSolState "u" 0).1
        = (Solution.is_allowed 1 1 Solution.init "u" 0).1
      ∧ (Solution.is_allowed 1 1 exSolState "u" 0).2 "u"
          = (Solution.is_allowed 1 1 Solution.init "u" 0).2 "u")
      ∧ (Solution.is_allowed 1 1 exSolState "u" 0).2 "a" = exSolState "a"
      ∧ outputs (Solution.is_allowed 2 1) Solution.init
          [⟨"user1", 0⟩, ⟨"user1", 0⟩, ⟨"user1", 0⟩, ⟨"user2", 0⟩]
          = [true, true, false, true] := by
  obtain ⟨h1, h2, h3⟩ :=
    C8_key_independence 1 1 exSolState Solution.init exSolState "u" "a" 0
  exact ⟨h1 (by simp [exSolState, updF, Solution.init]), h2 (by decide), h3⟩

/-- C10 (implicit): a negative capacity is accepted silently at
construction (stored unclamped, no error) and the limiter then rejects
every call for every key and instant, in both `src/solution.py` and
`src/reference/fixed_window.py`. -/
theorem C10_negative_capacity_always_rejects (m : ℤ) (w : ℚ) (calls : List Call)
    (hm : m < 0) (_hw : 0 < w) :
    Solution.new m w = Except.ok (m, w)
      ∧ FixedWindow.new m w = Except.ok (m, w)
      ∧ outputs (Solution.is_allowed m w) Solution.init calls
          = List.replicate calls.length false
      ∧ outputs (FixedWindow.allow_request m w) FixedWindow.init calls
          = List.replicate calls.length false := by
  refine ⟨rfl, rfl,
    outputs_all_false _ (fun st k now => sol_false_of_nonpos m w (le_of_lt hm) st k now)
      calls _,
    fw_outputs_all_false m w (le_of_lt hm) calls FixedWindow.init ?_⟩
  intro k b hb
  simp [FixedWindow.init] at hb

/-- Witness for `C10_negative_capacity_always_rejects` at a concrete
input. -/
theorem C10_negative_capacity_always_rejects_witness :
    Solution.new (-1) 1 = Except.ok (-1, 1)
      ∧ FixedWindow.new (-1) 1 = Except.ok (-1, 1)
      ∧ outputs (Solution.is_allowed (-1) 1) Solution.init [⟨"u", 0⟩]
          = List.replicate 1 false
      ∧ outputs (FixedWindow.allow_request (-1) 1) FixedWindow.init [⟨"u", 0⟩]
          = List.replicate 1 false :=
  C10_negative_capacity_always_rejects (-1) 1 [⟨"u", 0⟩] (by norm_num) (by norm_num)

end RateLimiting
